import Mathlib

/-!
Verification of the fuse-crates filesystem (src/src/main.rs) against its
specification.  The program mounts a read-only FUSE filesystem whose tree is
built from gzip+tar `.crate` archives found in a source directory.  This file
gives a shallow embedding of the inode table, the tree builder (`init` /
`populate_crate`) and the protocol handlers (`getattr`, `lookup`, `opendir`,
`readdir`, `open`, `read`), and proves or refutes the frozen claims about it.

Modelling conventions:
* machine integers (`u64`, `u32`, `i64` offsets supplied by the kernel, which
  are always non-negative here) are modelled as `Nat`;
* `PathBuf` values are modelled as their component lists (`List String`);
  tar entry paths are given pre-split into components;
* the host filesystem seen by the program is a `Host` value: the directory
  listing plus a map from archive path to its decoded entry list, where
  `none` models a failure of `File::open`/gzip decoding;
* Rust panics (`unwrap` on an error/`None`) are modelled by `Option`,
  `none` meaning the thread panics and no reply is produced;
* `BTreeMap<u64, Inode>` is modelled as a function table `Nat → Option Inode`
  with pointwise update; the program never iterates the map itself, so the
  ordering of keys is irrelevant.
-/

namespace FuseCrates

/-- File type of an inode, mirroring the two `fuser::FileType` variants the
program constructs. -/
inductive FType where
  | directory
  | regularFile
deriving DecidableEq

/-- Mirror of `fuser::FileAttr`; timestamps are seconds since the epoch
(the program always uses `UNIX_EPOCH`, i.e. `0`). -/
structure FileAttrM where
  ino : Nat
  size : Nat
  blocks : Nat
  atime : Nat
  mtime : Nat
  ctime : Nat
  crtime : Nat
  kind : FType
  perm : Nat
  nlink : Nat
  uid : Nat
  gid : Nat
  rdev : Nat
  flags : Nat
  blksize : Nat
deriving DecidableEq

/-- Mirror of `const DIR_FH: u64 = 200679` — sentinel directory file handle. -/
def DIR_FH : Nat := 200679

/-- Mirror of `const FIL_FH: u64 = 220705` — sentinel file file handle. -/
def FIL_FH : Nat := 220705

/-- Mirror of `const BLKSIZE: u32 = 512`. -/
def BLKSIZE : Nat := 512

/-- Mirror of `fuser::FUSE_ROOT_ID`. -/
def FUSE_ROOT_ID : Nat := 1

/-- Mirror of `fuser::consts::FOPEN_KEEP_CACHE` (bit 1). -/
def FOPEN_KEEP_CACHE : Nat := 2

/-- Linux errno values used by the handlers. -/
def ENOENT : Nat := 2
def EIO : Nat := 5
def EBADF : Nat := 9
def ENOTDIR : Nat := 20
def EISDIR : Nat := 21
def EINVAL : Nat := 22
def EROFS : Nat := 30

/-- Linux open(2) flag bits tested by `open`/`opendir`. -/
def O_WRONLY : Nat := 1
def O_RDWR : Nat := 2
def O_CREAT : Nat := 64
def O_EXCL : Nat := 128
def O_TRUNC : Nat := 512
def O_APPEND : Nat := 1024

/-- The write-like flag mask rejected by `open` and `opendir`:
`O_APPEND | O_CREAT | O_EXCL | O_RDWR | O_WRONLY | O_TRUNC`. -/
def forbiddenMask : Nat :=
  O_APPEND ||| O_CREAT ||| O_EXCL ||| O_RDWR ||| O_WRONLY ||| O_TRUNC

/-- Mirror of `struct Inode`: attributes, ordered child inode numbers, the
stored path (for the root: empty; for crate directories: the file stem; for
intermediate directories: the accumulated components; for files: the full tar
entry path), and for files the path of the source archive. -/
structure Inode where
  attrs : FileAttrM
  children : List Nat
  path : List String
  kratePath : Option String
deriving DecidableEq

/-- Mirror of `FuseFs::DIR_ATTR_TEMPLATE`. -/
def DIR_ATTR_TEMPLATE : FileAttrM :=
  { ino := 0, size := 0, blocks := 0, atime := 0, mtime := 0, ctime := 0,
    crtime := 0, kind := .directory, perm := 0o555, nlink := 2, uid := 1062,
    gid := 1063, rdev := 0, flags := 0, blksize := 512 }

/-- Mirror of `FuseFs::FIL_ATTR_TEMPLATE`. -/
def FIL_ATTR_TEMPLATE : FileAttrM :=
  { DIR_ATTR_TEMPLATE with kind := .regularFile, perm := 0o444, nlink := 1 }

/-- The inode table: `BTreeMap<u64, Inode>` as a function table. -/
abbrev Tbl := Nat → Option Inode

/-- Mirror of `BTreeMap::insert` (overwriting). -/
def tupdate (t : Tbl) (k : Nat) (v : Inode) : Tbl :=
  fun k' => if k' = k then some v else t k'

/-- Mirror of `self.inodes.get_mut(&k).unwrap().children.push(c)`; a missing key is a
no-op here (the program would panic there, but every `get_mut` in the source
is on a key inserted earlier, which the invariant proofs below confirm). -/
def pushChild (t : Tbl) (k : Nat) (c : Nat) : Tbl :=
  fun k' =>
    if k' = k then (t k').map (fun i => { i with children := i.children ++ [c] })
    else t k'

/-- Mirror of `struct FuseFs`. -/
structure FuseFs where
  path : String
  inodes : Tbl
  nextInode : Nat

/-- One tar entry: its path (pre-split into components), the size recorded in
its header, and its payload bytes.  In a well-formed tar stream
`payload.length = size`. -/
structure Entry where
  path : List String
  size : Nat
  payload : List Nat
deriving DecidableEq

/-- The host environment: the enumeration of the source directory and, for
each archive path, the decoded entry sequence (`none` = opening or decoding
the archive fails). -/
structure Host where
  dirFiles : List String
  archive : String → Option (List Entry)

/-- Reply to `getattr` (`fuser::ReplyAttr`). -/
inductive AttrReply where
  | attr (ttlSecs : Nat) (a : FileAttrM)
  | error (errno : Nat)
deriving DecidableEq

/-- Reply to `open`/`opendir` (`fuser::ReplyOpen`). -/
inductive OpenReply where
  | opened (fh : Nat) (openFlags : Nat)
  | error (errno : Nat)
deriving DecidableEq

/-- Reply to `lookup` (`fuser::ReplyEntry`). -/
inductive EntryReply where
  | entry (ttlSecs : Nat) (a : FileAttrM) (generation : Nat)
  | error (errno : Nat)
deriving DecidableEq

/-- One directory entry pushed into a `ReplyDirectory` buffer: the inode, the
offset value tagged on the entry, its kind and its name. -/
structure DirEnt where
  ino : Nat
  off : Nat
  kind : FType
  name : String
deriving DecidableEq

/-- Reply to `readdir`. -/
inductive DirReply where
  | entries (ents : List DirEnt)
  | error (errno : Nat)
deriving DecidableEq

/-- Reply to `read` (`fuser::ReplyData`). -/
inductive DataReply where
  | data (bytes : List Nat)
  | error (errno : Nat)
deriving DecidableEq

/-! ## Handlers -/

/-- Mirror of `FuseFs::getattr`: look the inode up; reply its attributes with a
1-second TTL, or `ENOENT`. -/
def getattrH (fs : FuseFs) (ino : Nat) : AttrReply :=
  match fs.inodes ino with
  | some i => .attr 1 i.attrs
  | none => .error ENOENT

/-- Mirror of `FuseFs::opendir`: reject write-like flags with `EROFS` before looking at
the inode; then `ENOENT` for a missing inode; otherwise the directory
sentinel handle with `FOPEN_KEEP_CACHE`. -/
def opendirH (fs : FuseFs) (ino : Nat) (flags : Nat) : OpenReply :=
  if flags &&& forbiddenMask ≠ 0 then .error EROFS
  else if (fs.inodes ino).isNone then .error ENOENT
  else .opened DIR_FH FOPEN_KEEP_CACHE

/-- Mirror of `FuseFs::open`: same structure as `opendir` but replies the file
sentinel handle. -/
def openH (fs : FuseFs) (ino : Nat) (flags : Nat) : OpenReply :=
  if flags &&& forbiddenMask ≠ 0 then .error EROFS
  else if (fs.inodes ino).isNone then .error ENOENT
  else .opened FIL_FH FOPEN_KEEP_CACHE

/-- The child scan shared by `lookup`: first child whose
`path.file_name()` equals `name`.  The source calls
`.file_name().unwrap()` on each child; a child with an empty path (on which
the source would panic) or a child missing from the table simply does not
match here — both are impossible in tables built by `init`. -/
def findChildInode (fs : FuseFs) (children : List Nat) (name : String) :
    Option Inode :=
  match children with
  | [] => none
  | c :: rest =>
    match fs.inodes c with
    | some j =>
      if j.path.getLast? = some name then some j
      else findChildInode fs rest name
    | none => findChildInode fs rest name

/-- Mirror of `FuseFs::lookup`: `ENOENT` for a missing parent, `ENOTDIR` for a
non-directory parent, then a linear scan of the children comparing names;
the first match is replied with a 1-second TTL and generation 0. -/
def lookupH (fs : FuseFs) (parent : Nat) (name : String) : EntryReply :=
  match fs.inodes parent with
  | none => .error ENOENT
  | some p =>
    if p.attrs.kind ≠ .directory then .error ENOTDIR
    else
      match findChildInode fs p.children name with
      | some j => .entry 1 j.attrs 0
      | none => .error ENOENT

/-- The child portion of a `readdir` listing: child `c` at position `k` is
emitted as `(c, k, kind, name)` where `k` is the offset value tagged on the
entry (the loop variable `offset` of the source, incremented per child).  A
child missing from the table (a source panic, unreachable from `init`)
contributes nothing. -/
def childEnts (fs : FuseFs) (children : List Nat) (k : Nat) : List DirEnt :=
  match children with
  | [] => []
  | c :: rest =>
    (match fs.inodes c with
     | some j => [⟨c, k, j.attrs.kind, j.path.getLastD ""⟩]
     | none => []) ++ childEnts fs rest (k + 1)

/-- Mirror of `FuseFs::readdir`.  `cap` models the reply buffer: `reply.add` reports
the buffer full after `cap` entries have been accepted, at which point the
handler returns the partial batch (the entry that did not fit is dropped).
Validation order follows the source: missing inode → `ENOENT`, wrong file
handle → `EBADF`, non-directory → `ENOTDIR`.  A supplied offset `0` starts
from the beginning; any other supplied offset `o` resumes at `o + 1`.
The `"."` entry is tagged offset 0, `".."` offset 1, and the j-th child
offset `2 + j`. -/
def readdirH (fs : FuseFs) (ino fh : Nat) (offset : Nat) (cap : Nat) :
    DirReply :=
  match fs.inodes ino with
  | none => .error ENOENT
  | some i =>
    if fh ≠ DIR_FH then .error EBADF
    else if i.attrs.kind ≠ .directory then .error ENOTDIR
    else
      let start := if offset = 0 then 0 else offset + 1
      let dots :=
        (if start = 0 then [(⟨ino, 0, .directory, "."⟩ : DirEnt)] else []) ++
        (if start ≤ 1 then [(⟨ino, 1, .directory, ".."⟩ : DirEnt)] else [])
      let off2 := max 2 start
      .entries ((dots ++ childEnts fs (i.children.drop (off2 - 2)) off2).take cap)

/-- The skip loop of `FuseFs::read`: `offset / 512` successive
`read_exact` calls of one full 512-byte block each; `none` models the
`UnexpectedEof` escape (the stream ended before the block was filled). -/
def skipBlocks (payload : List Nat) : Nat → Option (List Nat)
  | 0 => some payload
  | q + 1 =>
    if 512 ≤ payload.length then skipBlocks (payload.drop 512) q else none

/-- The streaming tail of `FuseFs::read` once the entry has been located:
skip `offset / 512` full blocks, `read_exact` the remaining
`offset % 512` bytes, then `io::copy` from `entry.take(size)`.  Either
`read_exact` hitting end-of-entry replies an empty buffer. -/
def readFromEntry (payload : List Nat) (offset sz : Nat) : DataReply :=
  match skipBlocks payload (offset / 512) with
  | none => .data []
  | some rest =>
    let m := offset % 512
    if rest.length < m then .data []
    else .data ((rest.drop m).take sz)

/-- Mirror of `FuseFs::read`.  Validation order follows the source: wrong file handle
→ `EBADF`, missing inode → `ENOENT`, inode without an archive path →
`EISDIR`/`EINVAL`.  Then the source reopens the archive with
`open_archive(..).unwrap()` and locates the entry with
`.find(..).unwrap()` — both `unwrap`s panic on failure, modelled as `none`. -/
def readH (host : Host) (fs : FuseFs) (ino fh : Nat) (offset sz : Nat) :
    Option DataReply :=
  if fh ≠ FIL_FH then some (.error EBADF)
  else
    match fs.inodes ino with
    | none => some (.error ENOENT)
    | some i =>
      match i.kratePath with
      | none =>
        if i.attrs.kind = .directory then some (.error EISDIR)
        else some (.error EINVAL)
      | some kp =>
        match host.archive kp with
        | none => none
        | some entries =>
          match entries.find? (fun e => e.path == i.path) with
          | none => none
          | some e => some (readFromEntry e.payload offset sz)

/-! ## Tree builder (`init` and `populate_crate`) -/

/-- One step of the intermediate-component walk of `populate_crate`
(the body of `for component in &components[0..components_length - 1]`).
State: current filesystem, current cursor inode (`last_inode`) and the
accumulated path.  The children of the cursor are scanned for a child whose
`path.file_name()` equals the component (first match, mirroring `break`);
if none matches, a fresh directory inode is created with the accumulated
path, inserted, and appended to the cursor's children. -/
def walkComponent (st : FuseFs × Nat × List String) (comp : String) :
    FuseFs × Nat × List String :=
  let fs := st.1
  let lastIno := st.2.1
  let acc := st.2.2
  let children := match fs.inodes lastIno with
    | some i => i.children
    | none => []
  let found := children.find? (fun c =>
    match fs.inodes c with
    | some j => j.path.getLast? == some comp
    | none => false)
  let acc' := acc ++ [comp]
  match found with
  | some ch => (fs, ch, acc')
  | none =>
    let n := fs.nextInode
    let dirObj : Inode :=
      { attrs := { DIR_ATTR_TEMPLATE with ino := n },
        children := [], path := acc', kratePath := none }
    ({ fs with
        inodes := pushChild (tupdate fs.inodes n dirObj) lastIno n,
        nextInode := n + 1 },
     n, acc')

/-- Processing of one tar entry by `populate_crate`: walk all components but
the last starting from the root inode, then create the file inode (size and
blocks from the header, path the full entry path, `krate_path` the archive
path) and append it to the cursor's children.  An entry with an empty
component list makes the source panic (`components_length - 1` underflows
into an out-of-range slice), modelled as `none`. -/
def populateEntry (fs : FuseFs) (cratePath : String) (e : Entry) :
    Option FuseFs :=
  if e.path.isEmpty then none
  else
    let w := e.path.dropLast.foldl walkComponent (fs, FUSE_ROOT_ID, [])
    let fs' := w.1
    let lastIno := w.2.1
    let n := fs'.nextInode
    let fileObj : Inode :=
      { attrs := { FIL_ATTR_TEMPLATE with
          ino := n, size := e.size, blocks := (e.size + 511) / 512 },
        children := [], path := e.path, kratePath := some cratePath }
    some { fs' with
      inodes := pushChild (tupdate fs'.inodes n fileObj) lastIno n,
      nextInode := n + 1 }

/-- Mirror of `FuseFs::populate_crate`: open the archive at
`self.path/<crate_name>.crate` and fold its entries; a failed open is an
error, which `init` unwraps (panics), hence `none`. -/
def populateCrate (host : Host) (fs : FuseFs) (crateName : String) :
    Option FuseFs :=
  let cratePath := fs.path ++ "/" ++ crateName ++ ".crate"
  match host.archive cratePath with
  | none => none
  | some entries => entries.foldlM (fun s e => populateEntry s cratePath e) fs

/-- Splitting a character list at its last `'.'` into (stem, extension). -/
def lastDotSplit : List Char → Option (List Char × List Char)
  | [] => none
  | c :: rest =>
    match lastDotSplit rest with
    | some (s, e) => some (c :: s, e)
    | none => if c = '.' then some ([], rest) else none

/-- Splitting a file name at its last dot, mirroring
`Path::extension`/`Path::file_stem`: `none` when there is no dot or the name
is a bare dotfile such as `".crate"` (whose Rust `extension()` is `None`). -/
def splitExtName (name : String) : Option (String × String) :=
  match lastDotSplit name.toList with
  | none => none
  | some (s, e) => if s.isEmpty then none else some (String.mk s, String.mk e)

/-- Processing of one directory entry by `init`: names without a `crate`
extension are skipped; otherwise a directory inode named by the file stem is
created and appended to the root's children, and `populate_crate` runs for
it — its result unwrapped, so a failure is a panic (`none`). -/
def initStep (host : Host) (fs : FuseFs) (name : String) : Option FuseFs :=
  match splitExtName name with
  | some (stem, ext) =>
    if ext = "crate" then
      let n := fs.nextInode
      let crateDir : Inode :=
        { attrs := { DIR_ATTR_TEMPLATE with ino := n },
          children := [], path := [stem], kratePath := none }
      let fs' : FuseFs :=
        { fs with
          inodes := pushChild (tupdate fs.inodes n crateDir) FUSE_ROOT_ID n,
          nextInode := n + 1 }
      populateCrate host fs' stem
    else some fs
  | none => some fs

/-- The root inode inserted by `init`. -/
def rootInode : Inode :=
  { attrs := { DIR_ATTR_TEMPLATE with ino := FUSE_ROOT_ID },
    children := [], path := [], kratePath := none }

/-- Mirror of `Filesystem::init` for `FuseFs`: insert the root inode, then fold the
source-directory listing.  Any per-crate failure is unwrapped by the source,
so the whole initialization panics (`none`). -/
def initModel (host : Host) (srcPath : String) : Option FuseFs :=
  let fs0 : FuseFs :=
    { path := srcPath,
      inodes := tupdate (fun _ => none) FUSE_ROOT_ID rootInode,
      nextInode := FUSE_ROOT_ID + 1 }
  host.dirFiles.foldlM (initStep host) fs0

/-! ## The handler request sequence (for the frame property)

Each handler takes `&mut self` in the source but performs no assignment to
`self.inodes`, `self.next_inode` or `self.path`; the state-passing versions
below return the reply together with the receiver.  A `read` that panics
(`none` reply) unwinds without having written the table either. -/

def getattrOp (fs : FuseFs) (ino : Nat) : AttrReply × FuseFs :=
  (getattrH fs ino, fs)

def lookupOp (fs : FuseFs) (parent : Nat) (name : String) :
    EntryReply × FuseFs :=
  (lookupH fs parent name, fs)

def opendirOp (fs : FuseFs) (ino flags : Nat) : OpenReply × FuseFs :=
  (opendirH fs ino flags, fs)

def readdirOp (fs : FuseFs) (ino fh offset cap : Nat) : DirReply × FuseFs :=
  (readdirH fs ino fh offset cap, fs)

def openOp (fs : FuseFs) (ino flags : Nat) : OpenReply × FuseFs :=
  (openH fs ino flags, fs)

def readOp (host : Host) (fs : FuseFs) (ino fh offset sz : Nat) :
    Option DataReply × FuseFs :=
  (readH host fs ino fh offset sz, fs)

/-- One kernel request to a post-`init` handler (`openf` stands for the
handler called `open` in the source, a keyword here). -/
inductive Request where
  | getattr (ino : Nat)
  | lookup (parent : Nat) (name : String)
  | opendir (ino flags : Nat)
  | readdir (ino fh offset cap : Nat)
  | openf (ino flags : Nat)
  | read (ino fh offset sz : Nat)

/-- The state reached after serving one request. -/
def applyReq (host : Host) (fs : FuseFs) : Request → FuseFs
  | .getattr ino => (getattrOp fs ino).2
  | .lookup p n => (lookupOp fs p n).2
  | .opendir i f => (opendirOp fs i f).2
  | .readdir i f o c => (readdirOp fs i f o c).2
  | .openf i f => (openOp fs i f).2
  | .read i f o s => (readOp host fs i f o s).2

/-- The state reached after serving a sequence of requests. -/
def execAll (host : Host) (fs : FuseFs) (reqs : List Request) : FuseFs :=
  reqs.foldl (applyReq host) fs

/-! ## Readdir enumeration -/

/-- The full listing of a directory as `readdir` would emit it from offset 0
with an unbounded buffer: `"."` tagged 0, `".."` tagged 1, the j-th child
tagged `2 + j`. -/
def dirEnts (fs : FuseFs) (ino : Nat) (i : Inode) : List DirEnt :=
  ⟨ino, 0, .directory, "."⟩ :: ⟨ino, 1, .directory, ".."⟩ ::
    childEnts fs i.children 2

/-- The continuation procedure of claim R2/C8: call `readdir`, and while the
batch is non-empty re-invoke it with the offset tagged on the last entry of
the batch.  `caps` is the pattern of reply-buffer capacities (one per call);
the concatenation of all batches is returned. -/
def readdirDrive (fs : FuseFs) (ino : Nat) : List Nat → Nat → List DirEnt
  | [], _ => []
  | cap :: caps, off =>
    match readdirH fs ino DIR_FH off cap with
    | .error _ => []
    | .entries b =>
      match b.getLast? with
      | none => []
      | some lastEnt => b ++ readdirDrive fs ino caps lastEnt.off

/-! ## Tree invariants -/

/-- The name (`path.file_name()`) under which the inode at key `c` appears
to `lookup`/`readdir`; `none` for a missing inode or an empty path (the
source would panic on those). -/
def nameOf (t : Tbl) (c : Nat) : Option String :=
  (t c).bind fun j => j.path.getLast?

/-- The names of the children in a children list. -/
def childNamesT (t : Tbl) (cs : List Nat) : List String :=
  cs.filterMap (nameOf t)

/-- Provenance of an inode during tree building: it is the root, a crate
directory of a seen stem, an intermediate directory (a proper non-empty
prefix of a seen entry path), or a file (a seen entry path).  `Edir` and
`Efile` are the entry-path sets usable by directories resp. files; during
the processing of one entry they differ by exactly that entry. -/
def Prov (i : Inode) (SS : List String) (Edir Efile : List (List String)) :
    Prop :=
  i.path = [] ∨
  (∃ s ∈ SS, i.path = [s]) ∨
  (∃ e ∈ Edir, i.path <+: e ∧ i.path ≠ e ∧ i.path ≠ []) ∨
  i.path ∈ Efile

/-- The tree-building invariant: the root exists with an empty path, keys and
children stay below the inode counter, each child's path extends its
parent's by one component, the child names of every inode are pairwise
distinct, and every inode has a provenance. -/
structure Inv (fs : FuseFs) (SS : List String)
    (Edir Efile : List (List String)) : Prop where
  root : ∃ r, fs.inodes FUSE_ROOT_ID = some r ∧ r.path = []
  freshKey : ∀ k i, fs.inodes k = some i → k < fs.nextInode
  freshChild : ∀ k i c, fs.inodes k = some i → c ∈ i.children →
    c < fs.nextInode
  pathRel : ∀ k i c j, fs.inodes k = some i → c ∈ i.children →
    fs.inodes c = some j → ∃ nm, j.path = i.path ++ [nm]
  distinct : ∀ k i, fs.inodes k = some i →
    (childNamesT fs.inodes i.children).Nodup
  prov : ∀ k i, fs.inodes k = some i → Prov i SS Edir Efile

/-- A well-formed crate archive for stem `stem`: every entry path has at
least two components and starts with the stem, and entry paths are pairwise
distinct and prefix-free. -/
def archiveOK (stem : String) (arc : List Entry) : Prop :=
  (∀ e ∈ arc, 2 ≤ e.path.length ∧ e.path.head? = some stem) ∧
  List.Pairwise (fun p q => ¬ p <+: q ∧ ¬ q <+: p) (arc.map (·.path))

/-- Predicate `archiveOK` lifted over the result of opening the archive (an archive
that fails to open imposes no condition — `init` just panics on it). -/
def archiveOKopt (stem : String) : Option (List Entry) → Prop
  | none => True
  | some arc => archiveOK stem arc

instance (stem : String) (o : Option (List Entry)) :
    Decidable (archiveOKopt stem o) := by
  cases o with
  | none => exact isTrue trivial
  | some arc =>
    show Decidable (archiveOK stem arc)
    unfold archiveOK
    infer_instance

/-- The stems of the `.crate` files among a list of file names, in order. -/
def crateStemsOfFiles (files : List String) : List String :=
  files.filterMap fun n =>
    match splitExtName n with
    | some (s, e) => if e = "crate" then some s else none
    | none => none

/-- The stems of the `.crate` files of the source directory, in enumeration
order. -/
def crateStemsOf (host : Host) : List String :=
  crateStemsOfFiles host.dirFiles

/-- Bookkeeping side fact for the tree-building induction: every entry path
recorded so far has at least two components and starts with an
already-processed stem. -/
def EHeads (SS : List String) (E : List (List String)) : Prop :=
  ∀ e ∈ E, 2 ≤ e.length ∧ ∃ s ∈ SS, e.head? = some s

/-- A clean host: crate stems pairwise distinct and each crate archive
well-formed for its stem. -/
def GoodHost (host : Host) (src : String) : Prop :=
  (crateStemsOf host).Nodup ∧
  ∀ s ∈ crateStemsOf host,
    archiveOKopt s (host.archive (src ++ "/" ++ s ++ ".crate"))

instance (host : Host) (src : String) : Decidable (GoodHost host src) := by
  unfold GoodHost
  infer_instance

/-! ## Concrete environments used in witnesses and counterexamples -/

/-- A fallback filesystem value (used only as the `Option.getD` default). -/
def emptyFs : FuseFs :=
  { path := "", inodes := fun _ => none, nextInode := 2 }

/-- A filesystem whose table holds only the root directory. -/
def rootOnlyFs : FuseFs :=
  { path := "", inodes := tupdate (fun _ => none) FUSE_ROOT_ID rootInode,
    nextInode := 2 }

/-- A 5-byte tar entry used by the read witnesses. -/
def wEntry : Entry := ⟨["a-1.0", "file.txt"], 5, [1, 2, 3, 4, 5]⟩

/-- A host holding one well-formed single-entry archive. -/
def wHost : Host :=
  { dirFiles := ["a-1.0.crate"],
    archive := fun p =>
      if p = "d/a-1.0.crate" then some [wEntry] else none }

/-- The file inode for `wEntry`. -/
def wInode : Inode :=
  { attrs := { FIL_ATTR_TEMPLATE with ino := 7, size := 5, blocks := 1 },
    children := [], path := ["a-1.0", "file.txt"],
    kratePath := some "d/a-1.0.crate" }

/-- A hand-built filesystem holding the root and the `wEntry` file at
inode 7. -/
def wFs : FuseFs :=
  { path := "d",
    inodes := fun k =>
      if k = 7 then some wInode
      else if k = FUSE_ROOT_ID then some rootInode else none,
    nextInode := 8 }

/-- A host whose single crate archive contains the same path twice with
different sizes and payloads (the S5 scenario). -/
def exHost : Host :=
  { dirFiles := ["x-1.0.crate"],
    archive := fun p =>
      if p = "d/x-1.0.crate" then
        some [⟨["x-1.0", "y.txt"], 2, [10, 20]⟩,
              ⟨["x-1.0", "y.txt"], 3, [30, 40, 50]⟩]
      else none }

/-- The tree built from `exHost`: root 1, crate directory 2, file inodes 3
(first occurrence, size 2) and 4 (second occurrence, size 3). -/
def exFs : FuseFs := (initModel exHost "d").getD emptyFs

/-- A host whose first crate archive fails to open while the second is
fine. -/
def badHost : Host :=
  { dirFiles := ["a.crate", "b.crate"],
    archive := fun p =>
      if p = "d/b.crate" then some [⟨["b", "f"], 1, [9]⟩] else none }

/-- Host `badHost` without the broken crate. -/
def okHost : Host :=
  { dirFiles := ["b.crate"], archive := badHost.archive }

/-- A host with no readable archives at all. -/
def noArchiveHost : Host :=
  { dirFiles := [], archive := fun _ => none }

/-- A host whose only archive does not contain the entry `wInode` points
at. -/
def missingEntryHost : Host :=
  { dirFiles := ["a-1.0.crate"],
    archive := fun p =>
      if p = "d/a-1.0.crate" then some [⟨["a-1.0", "other"], 0, []⟩]
      else none }

/-- A clean two-crate host for the positive witnesses. -/
def goodHost : Host :=
  { dirFiles := ["a-1.0.crate", "b-2.0.crate"],
    archive := fun p =>
      if p = "d/a-1.0.crate" then
        some [⟨["a-1.0", "Cargo.toml"], 3, [1, 2, 3]⟩,
              ⟨["a-1.0", "src", "lib.rs"], 0, []⟩]
      else if p = "d/b-2.0.crate" then
        some [⟨["b-2.0", "f"], 1, [7]⟩]
      else none }

/-- The tree built from `goodHost`: root 1 with children [2, 6]; crate
directory 2 with children [3, 4] (`Cargo.toml`, `src`); directory 4 with
child 5 (`lib.rs`); crate directory 6 with child 7 (`f`). -/
def goodFs : FuseFs := (initModel goodHost "d").getD emptyFs

/-- The crate directory inode of `goodFs` (inode 2). -/
def goodCrateDir : Inode := (goodFs.inodes 2).getD rootInode

/-! ## Characterization of the read streaming loop -/

theorem skipBlocks_eq (q : Nat) (payload : List Nat) :
    skipBlocks payload q =
      if 512 * q ≤ payload.length then some (payload.drop (512 * q))
      else none := by
  induction q generalizing payload with
  | zero => simp [skipBlocks]
  | succ q ih =>
    rw [skipBlocks]
    by_cases h : 512 ≤ payload.length
    · rw [if_pos h, ih, List.length_drop, List.drop_drop]
      by_cases h2 : 512 * (q + 1) ≤ payload.length
      · rw [if_pos (by omega), if_pos h2,
          show 512 + 512 * q = 512 * (q + 1) from by ring]
      · rw [if_neg (by omega), if_neg h2]
    · rw [if_neg h, if_neg (by omega)]

/-- An in-bounds advance: when `offset ≤ payload.length` the streaming loop
reaches position `offset` and replies the next `sz` bytes. -/
theorem readFromEntry_of_le (payload : List Nat) (offset sz : Nat)
    (h : offset ≤ payload.length) :
    readFromEntry payload offset sz =
      .data ((payload.drop offset).take sz) := by
  have hqm := Nat.div_add_mod offset 512
  unfold readFromEntry
  rw [skipBlocks_eq, if_pos (by omega)]
  have hm : ¬ ((payload.drop (512 * (offset / 512))).length < offset % 512) := by
    rw [List.length_drop]; omega
  simp only [if_neg hm, List.drop_drop]
  rw [show 512 * (offset / 512) + offset % 512 = offset from hqm]

/-- An advance to or past end-of-entry replies an empty buffer. -/
theorem readFromEntry_of_ge (payload : List Nat) (offset sz : Nat)
    (h : payload.length ≤ offset) :
    readFromEntry payload offset sz = .data [] := by
  rcases Nat.eq_or_lt_of_le h with heq | hlt
  · rw [readFromEntry_of_le payload offset sz (le_of_eq heq.symm),
      List.drop_eq_nil_of_le (by omega)]
    simp
  · have hqm := Nat.div_add_mod offset 512
    unfold readFromEntry
    rw [skipBlocks_eq]
    by_cases hq : 512 * (offset / 512) ≤ payload.length
    · rw [if_pos hq]
      have hm : (payload.drop (512 * (offset / 512))).length < offset % 512 := by
        rw [List.length_drop]; omega
      simp only [if_pos hm]
    · rw [if_neg hq]

/-- Reduction of `read` to the streaming loop once the inode, archive and
entry hypotheses pin every validation branch. -/
theorem readH_locates (host : Host) (fs : FuseFs) (ino : Nat) (i : Inode)
    (kp : String) (arc : List Entry) (e : Entry) (offset sz : Nat)
    (hi : fs.inodes ino = some i)
    (hkp : i.kratePath = some kp)
    (harc : host.archive kp = some arc)
    (hent : arc.find? (fun en => en.path == i.path) = some e) :
    readH host fs ino FIL_FH offset sz =
      some (readFromEntry e.payload offset sz) := by
  unfold readH
  rw [if_neg (by simp)]
  simp only [hi, hkp, harc, hent]

/-! ## C1 -/

/-- C1: for a file inode whose archive contains its entry, an in-bounds read
`[offset, offset + size)` returns exactly those bytes of the entry payload;
in particular reading `[0, size(f))` returns the whole payload
byte-for-byte. -/
theorem c1_read_exact_slice (host : Host) (fs : FuseFs) (ino : Nat)
    (i : Inode) (kp : String) (arc : List Entry) (e : Entry)
    (offset sz : Nat)
    (hi : fs.inodes ino = some i)
    (hkp : i.kratePath = some kp)
    (harc : host.archive kp = some arc)
    (hent : arc.find? (fun en => en.path == i.path) = some e)
    (hwf : i.attrs.size = e.payload.length)
    (hbound : offset + sz ≤ i.attrs.size) :
    readH host fs ino FIL_FH offset sz =
      some (.data ((e.payload.drop offset).take sz)) ∧
    ((e.payload.drop offset).take sz).length = sz ∧
    readH host fs ino FIL_FH 0 i.attrs.size = some (.data e.payload) := by
  refine ⟨?_, ?_, ?_⟩
  · rw [readH_locates host fs ino i kp arc e offset sz hi hkp harc hent,
      readFromEntry_of_le _ _ _ (by omega)]
  · rw [List.length_take, List.length_drop]
    omega
  · rw [readH_locates host fs ino i kp arc e 0 i.attrs.size hi hkp harc hent,
      readFromEntry_of_le _ _ _ (by omega), List.drop_zero, hwf,
      List.take_length]

/-- C1 witness: the single-entry archive `wHost` read at offset 1 / size 3
and in full. -/
theorem c1_witness :
    readH wHost wFs 7 FIL_FH 1 3 = some (.data [2, 3, 4]) ∧
    readH wHost wFs 7 FIL_FH 0 5 = some (.data [1, 2, 3, 4, 5]) := by
  have h := c1_read_exact_slice wHost wFs 7 wInode "d/a-1.0.crate" [wEntry]
    wEntry 1 3 (by decide) (by decide) (by decide) (by decide) (by decide)
    (by decide)
  exact ⟨h.1.trans (by decide), h.2.2.trans (by decide)⟩

/-! ## C7 -/

/-- C7: reading at or past end-of-file replies an empty buffer (EOF), not an
error, whatever the requested size. -/
theorem c7_read_eof (host : Host) (fs : FuseFs) (ino : Nat) (i : Inode)
    (kp : String) (arc : List Entry) (e : Entry) (offset sz : Nat)
    (hi : fs.inodes ino = some i)
    (hkp : i.kratePath = some kp)
    (harc : host.archive kp = some arc)
    (hent : arc.find? (fun en => en.path == i.path) = some e)
    (hwf : i.attrs.size = e.payload.length)
    (hoff : i.attrs.size ≤ offset) :
    readH host fs ino FIL_FH offset sz = some (.data []) := by
  rw [readH_locates host fs ino i kp arc e offset sz hi hkp harc hent,
    readFromEntry_of_ge _ _ _ (by omega)]

/-- C7 witness: offsets 5 (= size) and 77 (&gt; size) on the 5-byte entry. -/
theorem c7_witness :
    readH wHost wFs 7 FIL_FH 5 10 = some (.data []) ∧
    readH wHost wFs 7 FIL_FH 77 10 = some (.data []) := by
  constructor
  · exact c7_read_eof wHost wFs 7 wInode "d/a-1.0.crate" [wEntry] wEntry 5 10
      (by decide) (by decide) (by decide) (by decide) (by decide) (by decide)
  · exact c7_read_eof wHost wFs 7 wInode "d/a-1.0.crate" [wEntry] wEntry 77 10
      (by decide) (by decide) (by decide) (by decide) (by decide) (by decide)

/-! ## C6 -/

/-- C6: a write-like flag makes both `opendir` and `open` reply `EROFS`
for every inode number, existing or not — the flag check precedes the
inode-existence check. -/
theorem c6_flags_erofs (fs : FuseFs) (ino flags : Nat)
    (h : flags &&& forbiddenMask ≠ 0) :
    opendirH fs ino flags = .error EROFS ∧
    openH fs ino flags = .error EROFS := by
  unfold opendirH openH
  rw [if_pos h, if_pos h]
  exact ⟨rfl, rfl⟩

/-- C6 witness: `O_WRONLY` on an inode number absent from the table. -/
theorem c6_witness :
    (O_WRONLY &&& forbiddenMask ≠ 0) ∧
    (wFs.inodes 999).isNone = true ∧
    opendirH wFs 999 O_WRONLY = .error EROFS ∧
    openH wFs 999 O_WRONLY = .error EROFS :=
  ⟨by decide, by decide, c6_flags_erofs wFs 999 O_WRONLY (by decide)⟩

/-! ## C5 -/

/-- C5 (amended): `read` fails to produce any reply (the `unwrap`s panic)
exactly when validation passed and then reopening the archive fails or the
named entry is absent from it; every other failure is an errno reply. -/
theorem c5_read_panic_characterization (host : Host) (fs : FuseFs)
    (ino fh offset sz : Nat) :
    readH host fs ino fh offset sz = none ↔
      (fh = FIL_FH ∧ ∃ i, fs.inodes ino = some i ∧
        ∃ kp, i.kratePath = some kp ∧
          (host.archive kp = none ∨
           ∃ arc, host.archive kp = some arc ∧
             arc.find? (fun en => en.path == i.path) = none)) := by
  unfold readH
  by_cases hfh : fh = FIL_FH
  · subst hfh
    rw [if_neg (by simp)]
    cases hino : fs.inodes ino with
    | none => simp
    | some i =>
      dsimp only
      cases hkp : i.kratePath with
      | none =>
        by_cases hk : i.attrs.kind = FType.directory <;> simp [hk, hkp]
      | some kp =>
        dsimp only
        cases harc : host.archive kp with
        | none => exact iff_of_true rfl ⟨rfl, i, rfl, kp, hkp, .inl harc⟩
        | some arc =>
          dsimp only
          cases hent : arc.find? (fun en => en.path == i.path) with
          | none =>
            exact iff_of_true rfl
              ⟨rfl, i, rfl, kp, hkp, .inr ⟨arc, harc, hent⟩⟩
          | some e =>
            refine iff_of_false (by simp) ?_
            rintro ⟨-, i', hi', kp', hkp', hbad⟩
            obtain rfl : i' = i := by injection hi' with h; exact h.symm
            rw [hkp] at hkp'
            obtain rfl : kp' = kp := by injection hkp' with h; exact h.symm
            rcases hbad with hnone | ⟨arc', harc', hfind⟩
            · rw [harc] at hnone; cases hnone
            · rw [harc] at harc'
              obtain rfl : arc' = arc := by injection harc' with h; exact h.symm
              rw [hent] at hfind
              cases hfind
  · simp [if_pos hfh, hfh]

/-- C5 (counterexample): with the archive unopenable, resp. the named entry
absent, `read` panics instead of replying an errno. -/
theorem c5_counterexample :
    readH noArchiveHost wFs 7 FIL_FH 0 4 = none ∧
    readH missingEntryHost wFs 7 FIL_FH 0 4 = none := by
  exact ⟨by decide, by decide⟩

/-! ## C10 -/

/-- C10: `opendir` and `open` do not check the inode kind — any existing
inode opens under either handler when no forbidden flag is set — and the
mismatch is detected only later, by `readdir` (`ENOTDIR`) or `read`
(`EISDIR`). -/
theorem c10_kind_unchecked (host : Host) (fs : FuseFs) (ino : Nat)
    (i : Inode) (flags offset sz cap : Nat)
    (hi : fs.inodes ino = some i)
    (hfl : flags &&& forbiddenMask = 0) :
    opendirH fs ino flags = .opened DIR_FH FOPEN_KEEP_CACHE ∧
    openH fs ino flags = .opened FIL_FH FOPEN_KEEP_CACHE ∧
    (i.attrs.kind ≠ .directory →
      readdirH fs ino DIR_FH offset cap = .error ENOTDIR) ∧
    (i.attrs.kind = .directory → i.kratePath = none →
      readH host fs ino FIL_FH offset sz = some (.error EISDIR)) := by
  refine ⟨?_, ?_, ?_, ?_⟩
  · unfold opendirH
    rw [if_neg (by simp [hfl]), if_neg (by simp [hi])]
  · unfold openH
    rw [if_neg (by simp [hfl]), if_neg (by simp [hi])]
  · intro hk
    simp [readdirH, hi, hk]
  · intro hk hkp
    simp [readH, hi, hkp, hk]

/-- C10 witness: the file inode 7 opens as a directory and the root
directory opens as a file; `readdir` on the file replies `ENOTDIR` and
`read` on the directory replies `EISDIR`. -/
theorem c10_witness :
    opendirH wFs 7 0 = .opened DIR_FH FOPEN_KEEP_CACHE ∧
    readdirH wFs 7 DIR_FH 0 100 = .error ENOTDIR ∧
    openH wFs 1 0 = .opened FIL_FH FOPEN_KEEP_CACHE ∧
    readH wHost wFs 1 FIL_FH 0 10 = some (.error EISDIR) := by
  have h7 := c10_kind_unchecked wHost wFs 7 wInode 0 0 10 100 (by decide)
    (by decide)
  have h1 := c10_kind_unchecked wHost wFs 1 rootInode 0 0 10 100 (by decide)
    (by decide)
  exact ⟨h7.1, h7.2.2.1 (by decide), h1.2.1, h1.2.2.2 (by decide) (by decide)⟩

/-! ## C9 -/

/-- C9: after `init`, no handler operation mutates the inode table: serving
any sequence of requests leaves the filesystem state identical, and
consequently `getattr` is a pure function of the inode number across the
mount's lifetime. -/
theorem c9_handlers_pure (host : Host) (fs : FuseFs) (reqs : List Request) :
    execAll host fs reqs = fs ∧
    ∀ ino, getattrH (execAll host fs reqs) ino = getattrH fs ino := by
  have hstep : ∀ gs r, applyReq host gs r = gs := by
    intro gs r
    cases r <;> rfl
  have hall : execAll host fs reqs = fs := by
    unfold execAll
    induction reqs with
    | nil => rfl
    | cons r rs ih =>
      rw [List.foldl_cons, hstep fs r]
      exact ih
  exact ⟨hall, fun ino => by rw [hall]⟩

/-! ## C2 -/

/-- C2 (counterexample): with the S5 archive (`x-1.0/y.txt` twice, sizes 2
and 3) the parent directory keeps both occurrences as same-named children
`[3, 4]`, `lookup` resolves to the FIRST occurrence (inode 3, size 2) and
not to the last, and `read` on the last-occurrence inode 4 does not return
that occurrence's payload. -/
theorem c2_counterexample :
    (exFs.inodes 2).map (fun i => i.children) = some [3, 4] ∧
    (exFs.inodes 3).map (fun i => (i.path, i.attrs.size)) =
      some (["x-1.0", "y.txt"], 2) ∧
    (exFs.inodes 4).map (fun i => (i.path, i.attrs.size)) =
      some (["x-1.0", "y.txt"], 3) ∧
    lookupH exFs 2 "y.txt" =
      .entry 1 { FIL_ATTR_TEMPLATE with ino := 3, size := 2, blocks := 1 } 0 ∧
    lookupH exFs 2 "y.txt" ≠
      .entry 1 { FIL_ATTR_TEMPLATE with ino := 4, size := 3, blocks := 1 } 0 ∧
    readH exHost exFs 4 FIL_FH 0 3 ≠ some (.data [30, 40, 50]) := by
  decide

/-- C2 (amended): duplicate tar paths are not deduplicated: both occurrences
stay in the children list under the same name, `lookup` resolves to the
first occurrence's inode, and `read` on either inode streams the FIRST
matching archive entry, so the first occurrence's payload wins. -/
theorem c2_first_wins :
    childNamesT exFs.inodes [3, 4] = ["y.txt", "y.txt"] ∧
    lookupH exFs 2 "y.txt" =
      .entry 1 { FIL_ATTR_TEMPLATE with ino := 3, size := 2, blocks := 1 } 0 ∧
    readH exHost exFs 3 FIL_FH 0 4096 = some (.data [10, 20]) ∧
    readH exHost exFs 4 FIL_FH 0 4096 = some (.data [10, 20]) := by
  decide

/-! ## C4 -/

theorem walkComponent_path (st : FuseFs × Nat × List String) (comp : String) :
    ((walkComponent st comp).1).path = st.1.path := by
  obtain ⟨fs, lastIno, acc⟩ := st
  unfold walkComponent
  dsimp only
  split <;> rfl

theorem walk_path (l : List String) (st : FuseFs × Nat × List String) :
    ((l.foldl walkComponent st).1).path = st.1.path := by
  induction l generalizing st with
  | nil => rfl
  | cons c t ih => rw [List.foldl_cons, ih, walkComponent_path]

theorem populateEntry_path {fs : FuseFs} {cp : String} {e : Entry}
    {fs' : FuseFs} (h : populateEntry fs cp e = some fs') :
    fs'.path = fs.path := by
  unfold populateEntry at h
  split at h
  · cases h
  · injection h with h
    rw [← h]
    exact walk_path e.path.dropLast (fs, FUSE_ROOT_ID, [])

theorem foldlM_path {α : Type} (f : FuseFs → α → Option FuseFs)
    (hf : ∀ s a s', f s a = some s' → s'.path = s.path) :
    ∀ (l : List α) (s s' : FuseFs), List.foldlM f s l = some s' →
      s'.path = s.path := by
  intro l
  induction l with
  | nil =>
    intro s s' h
    simp only [List.foldlM] at h
    injection h with h
    rw [← h]
  | cons a t ih =>
    intro s s' h
    rw [List.foldlM_cons] at h
    cases hfa : f s a with
    | none => rw [hfa] at h; cases h
    | some s₁ =>
      rw [hfa] at h
      exact (ih s₁ s' h).trans (hf s a s₁ hfa)

theorem populateCrate_path {host : Host} {fs : FuseFs} {cn : String}
    {fs' : FuseFs} (h : populateCrate host fs cn = some fs') :
    fs'.path = fs.path := by
  unfold populateCrate at h
  dsimp only at h
  cases harc : host.archive (fs.path ++ "/" ++ cn ++ ".crate") with
  | none => rw [harc] at h; cases h
  | some entries =>
    rw [harc] at h
    exact foldlM_path _ (fun s a s' hh => populateEntry_path hh)
      entries fs fs' h

theorem initStep_path {host : Host} {fs : FuseFs} {name : String}
    {fs' : FuseFs} (h : initStep host fs name = some fs') :
    fs'.path = fs.path := by
  unfold initStep at h
  cases hsp : splitExtName name with
  | none =>
    rw [hsp] at h
    injection h with h
    rw [← h]
  | some se =>
    rw [hsp] at h
    obtain ⟨stem, ext⟩ := se
    dsimp only at h
    by_cases hext : ext = "crate"
    · rw [if_pos hext] at h
      have hp := populateCrate_path h
      exact hp
    · rw [if_neg hext] at h
      injection h with h
      rw [← h]

/-- A crate whose archive fails to open aborts `init_step` (the source
unwraps the `populate_crate` error). -/
theorem initStep_crate_fail (host : Host) (fs : FuseFs) (name stem : String)
    (hsplit : splitExtName name = some (stem, "crate"))
    (hfail : host.archive (fs.path ++ "/" ++ stem ++ ".crate") = none) :
    initStep host fs name = none := by
  unfold initStep
  rw [hsplit]
  dsimp only
  rw [if_pos rfl]
  unfold populateCrate
  dsimp only
  rw [hfail]

theorem initFold_fails (host : Host) (src name stem : String)
    (hsplit : splitExtName name = some (stem, "crate"))
    (hfail : host.archive (src ++ "/" ++ stem ++ ".crate") = none) :
    ∀ (l : List String) (fs : FuseFs), fs.path = src → name ∈ l →
      List.foldlM (initStep host) fs l = none := by
  intro l
  induction l with
  | nil => intro fs _ h; cases h
  | cons a t ih =>
    intro fs hpath hmem
    rw [List.foldlM_cons]
    cases hstep : initStep host fs a with
    | none => rfl
    | some fs₁ =>
      rcases List.mem_cons.mp hmem with heq | hmem'
      · exfalso
        rw [← heq] at hstep
        rw [initStep_crate_fail host fs name stem hsplit
          (by rw [hpath]; exact hfail)] at hstep
        cases hstep
      · exact ih fs₁ (by rw [initStep_path hstep, hpath]) hmem'

/-- C4 (amended): a failure to open one `.crate` archive IS fatal to `init`:
the source unwraps the error, so the whole initialization panics and no
further crate is processed — `init` does not return Ok. -/
theorem c4_archive_failure_fatal (host : Host) (src name stem : String)
    (hmem : name ∈ host.dirFiles)
    (hsplit : splitExtName name = some (stem, "crate"))
    (hfail : host.archive (src ++ "/" ++ stem ++ ".crate") = none) :
    initModel host src = none := by
  unfold initModel
  exact initFold_fails host src name stem hsplit hfail host.dirFiles _ rfl hmem

/-- C4 (counterexample): `badHost` has an unopenable `a.crate` followed by a
healthy `b.crate`; `init` panics instead of skipping `a.crate`, while the
same directory without the broken crate initializes fine. -/
theorem c4_counterexample :
    initModel badHost "d" = none ∧ (initModel okHost "d").isSome = true := by
  exact ⟨rfl, by decide⟩

/-- C4 witness: the amended theorem applied to `badHost` and its broken
`a.crate`. -/
theorem c4_witness : initModel badHost "d" = none :=
  c4_archive_failure_fatal badHost "d" "a.crate" "a" (by decide) (by decide)
    (by decide)

/-! ## C8 -/

theorem childEnts_present_cons (fs : FuseFs) (c : Nat) (rest : List Nat)
    (k : Nat) (j : Inode) (hj : fs.inodes c = some j) :
    childEnts fs (c :: rest) k =
      ⟨c, k, j.attrs.kind, j.path.getLastD ""⟩ :: childEnts fs rest (k + 1) := by
  simp only [childEnts]
  rw [hj]
  rfl

/-- Dropping `m` children commutes with emitting them, provided every child
is present in the table (there each child contributes exactly one entry). -/
theorem childEnts_drop (fs : FuseFs) :
    ∀ (m : Nat) (cs : List Nat) (k : Nat),
      (∀ c ∈ cs, (fs.inodes c).isSome) →
      childEnts fs (cs.drop m) (k + m) = (childEnts fs cs k).drop m := by
  intro m
  induction m with
  | zero => intro cs k _; simp
  | succ m ih =>
    intro cs k hp
    cases cs with
    | nil => simp [childEnts]
    | cons c rest =>
      obtain ⟨j, hj⟩ := Option.isSome_iff_exists.mp (hp c (by simp))
      rw [List.drop_succ_cons, childEnts_present_cons fs c rest k j hj,
        List.drop_succ_cons, show k + (m + 1) = (k + 1) + m from by omega]
      exact ih rest (k + 1) (fun x hx => hp x (by simp [hx]))

/-- With all children present, the entry at index `j` of a child listing
started at tag `k` carries the offset tag `k + j`. -/
theorem childEnts_off (fs : FuseFs) :
    ∀ (cs : List Nat) (k j : Nat) (ent : DirEnt),
      (∀ c ∈ cs, (fs.inodes c).isSome) →
      (childEnts fs cs k)[j]? = some ent → ent.off = k + j := by
  intro cs
  induction cs with
  | nil => intro k j ent _ h; simp [childEnts] at h
  | cons c rest ih =>
    intro k j ent hp h
    obtain ⟨i, hi⟩ := Option.isSome_iff_exists.mp (hp c (by simp))
    rw [childEnts_present_cons fs c rest k i hi] at h
    cases j with
    | zero =>
      rw [List.getElem?_cons_zero] at h
      injection h with h
      simp [← h]
    | succ j' =>
      rw [List.getElem?_cons_succ] at h
      have := ih (k + 1) j' ent (fun x hx => hp x (by simp [hx])) h
      omega

/-- Every entry of a full directory listing is tagged with its position. -/
theorem dirEnts_off (fs : FuseFs) (ino : Nat) (i : Inode)
    (hp : ∀ c ∈ i.children, (fs.inodes c).isSome) :
    ∀ (j : Nat) (ent : DirEnt), (dirEnts fs ino i)[j]? = some ent →
      ent.off = j := by
  intro j ent h
  unfold dirEnts at h
  cases j with
  | zero =>
    rw [List.getElem?_cons_zero] at h
    injection h with h
    simp [← h]
  | succ j1 =>
    cases j1 with
    | zero =>
      rw [List.getElem?_cons_succ, List.getElem?_cons_zero] at h
      injection h with h
      simp [← h]
    | succ j2 =>
      rw [List.getElem?_cons_succ, List.getElem?_cons_succ] at h
      have := childEnts_off fs i.children 2 j2 ent hp h
      omega

/-- One `readdir` call on a valid directory returns the `cap`-bounded batch
of the full listing resuming after the supplied offset. -/
theorem readdirH_batch (fs : FuseFs) (ino : Nat) (i : Inode) (o cap : Nat)
    (hi : fs.inodes ino = some i)
    (hk : i.attrs.kind = FType.directory)
    (hp : ∀ c ∈ i.children, (fs.inodes c).isSome) :
    readdirH fs ino DIR_FH o cap =
      .entries (((dirEnts fs ino i).drop
        (if o = 0 then 0 else o + 1)).take cap) := by
  unfold readdirH
  rw [hi]
  dsimp only
  rw [if_neg (by simp), if_neg (by simp [hk])]
  by_cases ho : o = 0
  · subst ho
    simp [dirEnts]
  · obtain ⟨o', rfl⟩ : ∃ o', o = o' + 1 := ⟨o - 1, by omega⟩
    rw [if_neg ho]
    have h1 : ¬ (o' + 1 + 1 = 0) := by omega
    have h2 : ¬ (o' + 1 + 1 ≤ 1) := by omega
    have h3 : max 2 (o' + 1 + 1) = 2 + o' := by omega
    simp only [if_neg h1, if_neg h2, h3, List.nil_append]
    have h4 : 2 + o' - 2 = o' := by omega
    rw [h4, childEnts_drop fs o' i.children 2 hp]
    have h5 : (dirEnts fs ino i).drop (o' + 1 + 1) =
        (childEnts fs i.children 2).drop o' := by
      unfold dirEnts
      rw [show o' + 1 + 1 = o' + 1 + 1 from rfl, List.drop_succ_cons,
        List.drop_succ_cons]
    rw [h5]

/-- Resuming the continuation procedure from the tag of the entry at any
position `t ≥ 1`: with per-call capacities of at least one entry and enough
calls, the concatenation of the remaining batches is exactly the rest of the
listing. -/
theorem readdirDrive_inner (fs : FuseFs) (ino : Nat) (i : Inode)
    (hi : fs.inodes ino = some i) (hk : i.attrs.kind = FType.directory)
    (hp : ∀ c ∈ i.children, (fs.inodes c).isSome) :
    ∀ (caps : List Nat) (t : Nat), 1 ≤ t → (∀ x ∈ caps, 1 ≤ x) →
      (dirEnts fs ino i).length ≤ t + 1 + caps.length →
      readdirDrive fs ino caps t = (dirEnts fs ino i).drop (t + 1) := by
  intro caps
  induction caps with
  | nil =>
    intro t _ _ hlen
    rw [readdirDrive]
    exact (List.drop_eq_nil_of_le (by simpa using hlen)).symm
  | cons cap caps ih =>
    intro t ht hcaps hlen
    rw [readdirDrive, readdirH_batch fs ino i t cap hi hk hp,
      if_neg (by omega)]
    dsimp only
    by_cases hrn : (dirEnts fs ino i).drop (t + 1) = []
    · rw [hrn]
      simp
    · have hlen1 : 0 < ((dirEnts fs ino i).drop (t + 1)).length :=
        List.length_pos.mpr hrn
      have hcap1 : 1 ≤ cap := hcaps cap (by simp)
      have hbpos : 0 < (((dirEnts fs ino i).drop (t + 1)).take cap).length := by
        rw [List.length_take]
        omega
      obtain ⟨lastEnt, hlast⟩ : ∃ le,
          (((dirEnts fs ino i).drop (t + 1)).take cap).getLast? = some le := by
        cases hgl : (((dirEnts fs ino i).drop (t + 1)).take cap).getLast? with
        | none =>
          exfalso
          rw [List.getLast?_eq_getElem?] at hgl
          rw [List.getElem?_eq_none_iff] at hgl
          omega
        | some le => exact ⟨le, rfl⟩
      rw [hlast]
      dsimp only
      have hblen : (((dirEnts fs ino i).drop (t + 1)).take cap).length =
          min cap ((dirEnts fs ino i).drop (t + 1)).length := by
        rw [List.length_take]
      have hoff : lastEnt.off =
          t + (((dirEnts fs ino i).drop (t + 1)).take cap).length := by
        have h1 := List.getLast?_eq_getElem?
          (((dirEnts fs ino i).drop (t + 1)).take cap)
        rw [hlast] at h1
        rw [List.getElem?_take] at h1
        rw [if_pos (by omega)] at h1
        rw [List.getElem?_drop] at h1
        have h4 := dirEnts_off fs ino i hp _ lastEnt h1.symm
        omega
      rw [hoff]
      rw [ih (t + (((dirEnts fs ino i).drop (t + 1)).take cap).length)
        (by omega) (fun x hx => hcaps x (by simp [hx]))
        (by
          simp only [List.length_cons] at hlen
          have hD := List.length_drop (t + 1) (dirEnts fs ino i)
          omega)]
      have hdd : (dirEnts fs ino i).drop
          (t + (((dirEnts fs ino i).drop (t + 1)).take cap).length + 1) =
          ((dirEnts fs ino i).drop (t + 1)).drop
            ((((dirEnts fs ino i).drop (t + 1)).take cap).length) := by
        rw [List.drop_drop]
        congr 1
        omega
      rw [hdd]
      rcases le_or_lt cap ((dirEnts fs ino i).drop (t + 1)).length with hc | hc
      · rw [show (((dirEnts fs ino i).drop (t + 1)).take cap).length = cap
          from by omega]
        exact List.take_append_drop cap _
      · rw [show (((dirEnts fs ino i).drop (t + 1)).take cap).length =
            ((dirEnts fs ino i).drop (t + 1)).length from by omega,
          List.drop_length, List.take_of_length_le (by omega),
          List.append_nil]

/-- C8 (amended): the readdir continuation procedure — re-invoking with the
offset of the last entry of each batch — concatenates to exactly
`[".", "..", child₁, child₂, …]` in insertion order, for every pattern of
reply-buffer-full signals in which the first batch accepts at least two
entries, every later batch at least one, and enough calls are made.  (The
restriction on the first batch is necessary: a first batch consisting of
`"."` alone resumes at its tag 0, which restarts the listing — see the
counterexample.) -/
theorem c8_drive_concat (fs : FuseFs) (ino : Nat) (i : Inode)
    (c : Nat) (cs : List Nat)
    (hi : fs.inodes ino = some i)
    (hk : i.attrs.kind = FType.directory)
    (hp : ∀ ch ∈ i.children, (fs.inodes ch).isSome)
    (hc : 2 ≤ c) (hcs : ∀ x ∈ cs, 1 ≤ x)
    (hlen : (dirEnts fs ino i).length ≤ c + cs.length) :
    readdirDrive fs ino (c :: cs) 0 = dirEnts fs ino i := by
  rw [readdirDrive, readdirH_batch fs ino i 0 c hi hk hp, if_pos rfl,
    List.drop_zero]
  dsimp only
  have h2 : 2 ≤ (dirEnts fs ino i).length := by
    unfold dirEnts
    simp
  have hbpos : 0 < ((dirEnts fs ino i).take c).length := by
    rw [List.length_take]
    omega
  obtain ⟨lastEnt, hlast⟩ : ∃ le,
      ((dirEnts fs ino i).take c).getLast? = some le := by
    cases hgl : ((dirEnts fs ino i).take c).getLast? with
    | none =>
      exfalso
      rw [List.getLast?_eq_getElem?, List.getElem?_eq_none_iff] at hgl
      omega
    | some le => exact ⟨le, rfl⟩
  rw [hlast]
  dsimp only
  have hblen : ((dirEnts fs ino i).take c).length =
      min c (dirEnts fs ino i).length := by
    rw [List.length_take]
  have hoff : lastEnt.off = ((dirEnts fs ino i).take c).length - 1 := by
    have h1 := List.getLast?_eq_getElem? ((dirEnts fs ino i).take c)
    rw [hlast] at h1
    rw [List.getElem?_take, if_pos (by omega)] at h1
    exact dirEnts_off fs ino i hp _ lastEnt h1.symm
  rw [hoff]
  rw [readdirDrive_inner fs ino i hi hk hp cs
    (((dirEnts fs ino i).take c).length - 1) (by omega) hcs (by omega)]
  rw [show ((dirEnts fs ino i).take c).length - 1 + 1 =
    ((dirEnts fs ino i).take c).length from by omega]
  rcases le_or_lt c (dirEnts fs ino i).length with hcle | hclt
  · rw [show ((dirEnts fs ino i).take c).length = c from by omega]
    exact List.take_append_drop c _
  · rw [show ((dirEnts fs ino i).take c).length = (dirEnts fs ino i).length
      from by omega, List.drop_length, List.take_of_length_le (by omega),
      List.append_nil]

/-- C8 (counterexample): with a reply buffer holding a single entry per
call, the first batch is `["."]` whose tag is 0; resuming at offset 0
restarts the listing, so the concatenation repeats `"."` forever and never
equals `[".", ".."]` — the claim fails for this full-signal pattern. -/
theorem c8_counterexample :
    readdirDrive rootOnlyFs 1 [1, 1, 1] 0 =
      [⟨1, 0, .directory, "."⟩, ⟨1, 0, .directory, "."⟩,
       ⟨1, 0, .directory, "."⟩] ∧
    (rootOnlyFs.inodes 1).map (fun i => dirEnts rootOnlyFs 1 i) =
      some [⟨1, 0, .directory, "."⟩, ⟨1, 1, .directory, ".."⟩] ∧
    readdirDrive rootOnlyFs 1 [1, 1, 1] 0 ≠
      [⟨1, 0, .directory, "."⟩, ⟨1, 1, .directory, ".."⟩] := by
  decide

/-! ## C3: invariant preservation through tree building -/

theorem tupdate_self (t : Tbl) (k : Nat) (v : Inode) :
    tupdate t k v k = some v := by
  unfold tupdate
  simp

theorem tupdate_other (t : Tbl) (k k' : Nat) (v : Inode) (h : k' ≠ k) :
    tupdate t k v k' = t k' := by
  unfold tupdate
  simp [h]

theorem pushChild_self (t : Tbl) (k c : Nat) :
    pushChild t k c k =
      (t k).map (fun i => { i with children := i.children ++ [c] }) := by
  unfold pushChild
  simp

theorem pushChild_other (t : Tbl) (k k' c : Nat) (h : k' ≠ k) :
    pushChild t k c k' = t k' := by
  unfold pushChild
  simp [h]

theorem nodup_append_singleton {l : List String} {a : String}
    (h1 : l.Nodup) (h2 : a ∉ l) : (l ++ [a]).Nodup := by
  rw [List.nodup_append]
  refine ⟨h1, List.nodup_singleton a, ?_⟩
  intro x hx hmem
  rw [List.mem_singleton] at hmem
  subst hmem
  exact h2 hx

theorem childNamesT_congr {t t' : Tbl} {cs : List Nat}
    (h : ∀ c ∈ cs, nameOf t' c = nameOf t c) :
    childNamesT t' cs = childNamesT t cs :=
  List.filterMap_congr h

theorem childNamesT_append_name {t : Tbl} {cs : List Nat} {c : Nat}
    {nm : String} (h : nameOf t c = some nm) :
    childNamesT t (cs ++ [c]) = childNamesT t cs ++ [nm] := by
  unfold childNamesT
  rw [List.filterMap_append]
  congr 1
  simp [h]

theorem childNamesT_mem {t : Tbl} {cs : List Nat} {x : String}
    (h : x ∈ childNamesT t cs) :
    ∃ c ∈ cs, ∃ j, t c = some j ∧ j.path.getLast? = some x := by
  unfold childNamesT at h
  rw [List.mem_filterMap] at h
  obtain ⟨c, hc, hn⟩ := h
  unfold nameOf at hn
  cases hj : t c with
  | none => rw [hj] at hn; cases hn
  | some j =>
    rw [hj] at hn
    exact ⟨c, hc, j, hj, hn⟩

theorem Prov_mono {i : Inode} {SS SS' : List String}
    {Ed Ed' Ef Ef' : List (List String)}
    (hSS : ∀ s ∈ SS, s ∈ SS') (hEd : ∀ e ∈ Ed, e ∈ Ed')
    (hEf : ∀ e ∈ Ef, e ∈ Ef') (h : Prov i SS Ed Ef) :
    Prov i SS' Ed' Ef' := by
  unfold Prov at *
  rcases h with h | ⟨s, hs, h⟩ | ⟨e, he, h1, h2, h3⟩ | h
  · exact .inl h
  · exact .inr (.inl ⟨s, hSS s hs, h⟩)
  · exact .inr (.inr (.inl ⟨e, hEd e he, h1, h2, h3⟩))
  · exact .inr (.inr (.inr (hEf _ h)))

theorem Prov_of_path_eq {i j : Inode} {SS : List String}
    {Ed Ef : List (List String)} (hp : j.path = i.path)
    (h : Prov i SS Ed Ef) : Prov j SS Ed Ef := by
  unfold Prov at *
  rw [hp]
  exact h

theorem Inv_mono {fs : FuseFs} {SS SS' : List String}
    {Ed Ed' Ef Ef' : List (List String)}
    (hSS : ∀ s ∈ SS, s ∈ SS') (hEd : ∀ e ∈ Ed, e ∈ Ed')
    (hEf : ∀ e ∈ Ef, e ∈ Ef') (h : Inv fs SS Ed Ef) :
    Inv fs SS' Ed' Ef' :=
  { root := h.root, freshKey := h.freshKey, freshChild := h.freshChild,
    pathRel := h.pathRel, distinct := h.distinct,
    prov := fun k i hk => Prov_mono hSS hEd hEf (h.prov k i hk) }

/-- Inserting a fresh inode `obj` named `nm` as a new child of `parent`
preserves the tree invariant, provided `parent` has no child named `nm` yet
and `obj` has a provenance.  `t'` is the table after
`insert(next, obj); get_mut(parent).children.push(next)`. -/
theorem addChild_core (fs : FuseFs) (t' : Tbl) (SS : List String)
    (Ed Ef : List (List String)) (parent : Nat) (pi obj : Inode)
    (nm : String)
    (hinv : Inv fs SS Ed Ef)
    (hpar : fs.inodes parent = some pi)
    (hpath : obj.path = pi.path ++ [nm])
    (hch : obj.children = [])
    (hname : nm ∉ childNamesT fs.inodes pi.children)
    (hprov : Prov obj SS Ed Ef)
    (hTn : t' fs.nextInode = some obj)
    (hTp : t' parent =
      some { pi with children := pi.children ++ [fs.nextInode] })
    (hTo : ∀ k, k ≠ fs.nextInode → k ≠ parent → t' k = fs.inodes k) :
    Inv { fs with inodes := t', nextInode := fs.nextInode + 1 } SS Ed Ef := by
  have hparn : parent < fs.nextInode := hinv.freshKey parent pi hpar
  have hpne : parent ≠ fs.nextInode := by omega
  have hview : ∀ k j', t' k = some j' → k ≠ fs.nextInode →
      ∃ j, fs.inodes k = some j ∧ j.path = j'.path := by
    intro k j' hk hkn
    by_cases hkp : k = parent
    · subst hkp
      rw [hTp] at hk
      injection hk with hk
      exact ⟨pi, hpar, by rw [← hk]⟩
    · rw [hTo k hkn hkp] at hk
      exact ⟨j', hk, rfl⟩
  have hchild : ∀ k j' c, t' k = some j' → c ∈ j'.children →
      (c = fs.nextInode ∧ k = parent) ∨
      ∃ j, fs.inodes k = some j ∧ c ∈ j.children ∧ j.path = j'.path := by
    intro k j' c hk hc
    by_cases hkn : k = fs.nextInode
    · subst hkn
      rw [hTn] at hk
      injection hk with hk
      rw [← hk, hch] at hc
      cases hc
    · by_cases hkp : k = parent
      · subst hkp
        rw [hTp] at hk
        injection hk with hk
        rw [← hk] at hc
        rcases List.mem_append.mp hc with hcold | hcnew
        · exact .inr ⟨pi, hpar, hcold, by rw [← hk]⟩
        · rw [List.mem_singleton] at hcnew
          exact .inl ⟨hcnew, rfl⟩
      · rw [hTo k hkn hkp] at hk
        exact .inr ⟨j', hk, hc, rfl⟩
  have hnames : ∀ c, c ≠ fs.nextInode → nameOf t' c = nameOf fs.inodes c := by
    intro c hcn
    by_cases hcp : c = parent
    · subst hcp
      unfold nameOf
      rw [hTp, hpar]
      rfl
    · unfold nameOf
      rw [hTo c hcn hcp]
  have hnameN : nameOf t' fs.nextInode = some nm := by
    unfold nameOf
    rw [hTn]
    show obj.path.getLast? = some nm
    rw [hpath, List.getLast?_concat]
  refine ⟨?_, ?_, ?_, ?_, ?_, ?_⟩
  · obtain ⟨r, hr, hrp⟩ := hinv.root
    by_cases h1p : FUSE_ROOT_ID = parent
    · refine ⟨{ pi with children := pi.children ++ [fs.nextInode] }, ?_, ?_⟩
      · show t' FUSE_ROOT_ID = _
        rw [h1p, hTp]
      · show pi.path = []
        rw [h1p] at hr
        rw [hpar] at hr
        injection hr with hr
        rw [hr]
        exact hrp
    · have h1n : FUSE_ROOT_ID ≠ fs.nextInode := by
        have := hinv.freshKey _ r hr
        omega
      refine ⟨r, ?_, hrp⟩
      show t' FUSE_ROOT_ID = some r
      rw [hTo _ h1n h1p]
      exact hr
  · intro k i' hk
    show k < fs.nextInode + 1
    replace hk : t' k = some i' := hk
    by_cases hkn : k = fs.nextInode
    · omega
    · by_cases hkp : k = parent
      · omega
      · rw [hTo k hkn hkp] at hk
        have := hinv.freshKey k i' hk
        omega
  · intro k i' c hk hc
    show c < fs.nextInode + 1
    replace hk : t' k = some i' := hk
    rcases hchild k i' c hk hc with ⟨rfl, -⟩ | ⟨j, hj, hcj, -⟩
    · omega
    · have := hinv.freshChild k j c hj hcj
      omega
  · intro k i' c j' hk hc hj'
    replace hk : t' k = some i' := hk
    replace hj' : t' c = some j' := hj'
    rcases hchild k i' c hk hc with ⟨hcn, hkp⟩ | ⟨j, hj, hcj, hjpath⟩
    · subst hcn
      subst hkp
      rw [hTn] at hj'
      injection hj' with hj'
      rw [hTp] at hk
      injection hk with hk
      refine ⟨nm, ?_⟩
      rw [← hj', hpath, ← hk]
    · have hcn : c ≠ fs.nextInode := by
        have := hinv.freshChild k j c hj hcj
        omega
      obtain ⟨j₀, hj₀, hj₀p⟩ := hview c j' hj' hcn
      obtain ⟨nm', hnm'⟩ := hinv.pathRel k j c j₀ hj hcj hj₀
      refine ⟨nm', ?_⟩
      rw [← hj₀p, hnm', hjpath]
  · intro k i' hk
    replace hk : t' k = some i' := hk
    show (childNamesT t' i'.children).Nodup
    by_cases hkn : k = fs.nextInode
    · subst hkn
      rw [hTn] at hk
      injection hk with hk
      rw [← hk, hch]
      simp [childNamesT]
    · by_cases hkp : k = parent
      · subst hkp
        rw [hTp] at hk
        injection hk with hk
        rw [← hk]
        show (childNamesT t' (pi.children ++ [fs.nextInode])).Nodup
        rw [childNamesT_append_name hnameN]
        rw [childNamesT_congr (fun c hc => hnames c
          (by have := hinv.freshChild k pi c hpar hc; omega))]
        exact nodup_append_singleton (hinv.distinct k pi hpar) hname
      · rw [hTo k hkn hkp] at hk
        rw [childNamesT_congr (fun c hc => hnames c
          (by have := hinv.freshChild k i' c hk hc; omega))]
        exact hinv.distinct k i' hk
  · intro k i' hk
    replace hk : t' k = some i' := hk
    by_cases hkn : k = fs.nextInode
    · subst hkn
      rw [hTn] at hk
      injection hk with hk
      exact Prov_of_path_eq (by rw [← hk]) hprov
    · obtain ⟨j, hj, hjp⟩ := hview k i' hk hkn
      exact Prov_of_path_eq hjp.symm (hinv.prov k j hj)

/-- The concrete table shape produced by the source:
`insert(next, obj)` then `push` onto the parent's children. -/
theorem addChild_inv (fs : FuseFs) (SS : List String)
    (Ed Ef : List (List String)) (parent : Nat) (pi obj : Inode)
    (nm : String)
    (hinv : Inv fs SS Ed Ef)
    (hpar : fs.inodes parent = some pi)
    (hpath : obj.path = pi.path ++ [nm])
    (hch : obj.children = [])
    (hname : nm ∉ childNamesT fs.inodes pi.children)
    (hprov : Prov obj SS Ed Ef) :
    Inv { fs with
        inodes := pushChild (tupdate fs.inodes fs.nextInode obj) parent
          fs.nextInode,
        nextInode := fs.nextInode + 1 } SS Ed Ef ∧
    pushChild (tupdate fs.inodes fs.nextInode obj) parent fs.nextInode
      fs.nextInode = some obj ∧
    pushChild (tupdate fs.inodes fs.nextInode obj) parent fs.nextInode
      parent = some { pi with children := pi.children ++ [fs.nextInode] } := by
  have hparn : parent < fs.nextInode := hinv.freshKey parent pi hpar
  have hpne : parent ≠ fs.nextInode := by omega
  have hTn : pushChild (tupdate fs.inodes fs.nextInode obj) parent
      fs.nextInode fs.nextInode = some obj := by
    rw [pushChild_other _ _ _ _ (Ne.symm hpne), tupdate_self]
  have hTp : pushChild (tupdate fs.inodes fs.nextInode obj) parent
      fs.nextInode parent =
      some { pi with children := pi.children ++ [fs.nextInode] } := by
    rw [pushChild_self, tupdate_other _ _ _ _ hpne, hpar]
    rfl
  have hTo : ∀ k, k ≠ fs.nextInode → k ≠ parent →
      pushChild (tupdate fs.inodes fs.nextInode obj) parent fs.nextInode k =
      fs.inodes k := by
    intro k h1 h2
    rw [pushChild_other _ _ _ _ h2, tupdate_other _ _ _ _ h1]
  exact ⟨addChild_core fs _ SS Ed Ef parent pi obj nm hinv hpar hpath hch
    hname hprov hTn hTp hTo, hTn, hTp⟩

/-- One step of the intermediate-component walk preserves the invariant and
moves the cursor to a node whose stored path extends the accumulator by the
component; `e` is the current entry path, whose strict prefix the new
accumulator is. -/
theorem walkComponent_inv (fs : FuseFs) (SS : List String)
    (Ed Ef : List (List String)) (cur : Nat) (ci : Inode)
    (acc : List String) (comp : String) (e : List String)
    (hinv : Inv fs SS Ed Ef)
    (hcur : fs.inodes cur = some ci)
    (hacc : ci.path = acc)
    (heEd : e ∈ Ed)
    (hpre : (acc ++ [comp]) <+: e)
    (hne : acc ++ [comp] ≠ e) :
    ∃ fs' cur' ci',
      walkComponent (fs, cur, acc) comp = (fs', cur', acc ++ [comp]) ∧
      Inv fs' SS Ed Ef ∧ fs'.inodes cur' = some ci' ∧
      ci'.path = acc ++ [comp] := by
  unfold walkComponent
  dsimp only
  rw [hcur]
  dsimp only
  cases hf : ci.children.find? (fun c =>
      match fs.inodes c with
      | some j => j.path.getLast? == some comp
      | none => false) with
  | some ch =>
    have hmem := List.mem_of_find?_eq_some hf
    have hpred := List.find?_some hf
    cases hch : fs.inodes ch with
    | none =>
      rw [hch] at hpred
      cases hpred
    | some j =>
      rw [hch] at hpred
      have hlast : j.path.getLast? = some comp := by simpa using hpred
      obtain ⟨nm', hnm'⟩ := hinv.pathRel cur ci ch j hcur hmem hch
      have hnmc : nm' = comp := by
        rw [hnm', List.getLast?_concat] at hlast
        exact Option.some.inj hlast
      refine ⟨fs, ch, j, rfl, hinv, hch, ?_⟩
      rw [hnm', hacc, hnmc]
  | none =>
    have hnm : comp ∉ childNamesT fs.inodes ci.children := by
      intro hmem
      obtain ⟨c, hc, j, hj, hlast⟩ := childNamesT_mem hmem
      have hfalse := List.find?_eq_none.mp hf c hc
      rw [hj] at hfalse
      exact hfalse (by simp [hlast])
    obtain ⟨hinv', hTn, hTp⟩ := addChild_inv fs SS Ed Ef cur ci
      { attrs := { DIR_ATTR_TEMPLATE with ino := fs.nextInode },
        children := [], path := acc ++ [comp], kratePath := none } comp
      hinv hcur (by rw [hacc]) rfl hnm
      (by unfold Prov
          exact Or.inr (Or.inr (Or.inl ⟨e, heEd, hpre, hne, by simp⟩)))
    exact ⟨_, _, _, rfl, hinv', hTn, rfl⟩

/-- The whole intermediate-component walk of one entry: starting at a node
whose stored path is `pre`, walking the remaining components of
`p.dropLast` preserves the invariant and lands on a node whose stored path
is `p.dropLast`. -/
theorem walk_fold_inv (SS : List String) (Ed Ef : List (List String))
    (p : List String) (hEd : p ∈ Ed) :
    ∀ (suf pre : List String) (fs : FuseFs) (cur : Nat) (ci : Inode),
      pre ++ suf = p.dropLast →
      Inv fs SS Ed Ef →
      fs.inodes cur = some ci →
      ci.path = pre →
      ∃ fs' cur' ci',
        suf.foldl walkComponent (fs, cur, pre) = (fs', cur', p.dropLast) ∧
        Inv fs' SS Ed Ef ∧ fs'.inodes cur' = some ci' ∧
        ci'.path = p.dropLast := by
  intro suf
  induction suf with
  | nil =>
    intro pre fs cur ci hpre hinv hcur hpath
    rw [List.append_nil] at hpre
    exact ⟨fs, cur, ci, by rw [List.foldl_nil, hpre], hinv, hcur,
      by rw [hpath, hpre]⟩
  | cons comp rest ih =>
    intro pre fs cur ci hpre hinv hcur hpath
    have hp0 : p ≠ [] := by
      intro h0
      rw [h0] at hpre
      simp at hpre
    have hple : (pre ++ [comp]) <+: p := by
      have h1 : (pre ++ [comp]) <+: p.dropLast := by
        rw [← hpre]
        exact ⟨rest, by simp⟩
      exact h1.trans (List.dropLast_prefix p)
    have hnep : pre ++ [comp] ≠ p := by
      intro heq
      have hl1 : (pre ++ [comp]).length ≤ p.dropLast.length := by
        rw [← hpre]
        simp
      rw [List.length_dropLast] at hl1
      have hl2 : (pre ++ [comp]).length = p.length := by rw [heq]
      have hl3 : 1 ≤ p.length := by
        cases p with
        | nil => exact absurd rfl hp0
        | cons a t => simp
      simp only [List.length_append, List.length_singleton] at hl1 hl2
      omega
    obtain ⟨fs₁, cur₁, ci₁, hw, hinv₁, hcur₁, hpath₁⟩ :=
      walkComponent_inv fs SS Ed Ef cur ci pre comp p hinv hcur hpath hEd
        hple hnep
    rw [List.foldl_cons, hw]
    exact ih (pre ++ [comp]) fs₁ cur₁ ci₁ (by simpa using hpre) hinv₁ hcur₁
      hpath₁

/-- Processing one entry with a fresh, prefix-free path preserves the
invariant, with the entry's path recorded. -/
theorem populateEntry_inv (fs : FuseFs) (SS : List String)
    (E : List (List String)) (cp : String) (e : Entry)
    (hinv : Inv fs SS (E ++ [e.path]) E)
    (hlen : 2 ≤ e.path.length)
    (hfresh : e.path ∉ E)
    (hnopre : ∀ e' ∈ E, ¬ (e.path <+: e')) :
    ∃ fs', populateEntry fs cp e = some fs' ∧
      Inv fs' SS (E ++ [e.path]) (E ++ [e.path]) := by
  have hpne : ¬ (e.path.isEmpty = true) := by
    cases hp : e.path with
    | nil => rw [hp] at hlen; simp at hlen
    | cons a t => simp
  unfold populateEntry
  rw [if_neg hpne]
  dsimp only
  obtain ⟨r, hr, hrp⟩ := hinv.root
  obtain ⟨fs₁, cur₁, ci₁, hfold, hinv₁, hcur₁, hpath₁⟩ :=
    walk_fold_inv SS (E ++ [e.path]) E e.path (by simp) e.path.dropLast []
      fs FUSE_ROOT_ID r (by simp) hinv hr hrp
  rw [hfold]
  dsimp only
  obtain ⟨g, hg⟩ : ∃ g, e.path.getLast? = some g := by
    cases hgl : e.path.getLast? with
    | none =>
      exfalso
      rw [List.getLast?_eq_getElem?, List.getElem?_eq_none_iff] at hgl
      omega
    | some g => exact ⟨g, rfl⟩
  have hsplit : e.path.dropLast ++ [g] = e.path :=
    List.dropLast_append_getLast? g hg
  have hnm : g ∉ childNamesT fs₁.inodes ci₁.children := by
    intro hmem
    obtain ⟨c, hc, j, hj, hlastj⟩ := childNamesT_mem hmem
    obtain ⟨nm', hnm'⟩ := hinv₁.pathRel cur₁ ci₁ c j hcur₁ hc hj
    have hnm'g : nm' = g := by
      rw [hnm', hpath₁, List.getLast?_concat] at hlastj
      exact Option.some.inj hlastj
    have hjpath : j.path = e.path := by
      rw [hnm', hpath₁, hnm'g, hsplit]
    have hpj := hinv₁.prov c j hj
    unfold Prov at hpj
    rcases hpj with h0 | ⟨s, hs, h1⟩ | ⟨e', he', hpre', hne', hne0⟩ | hf
    · rw [hjpath] at h0
      rw [h0] at hlen
      simp at hlen
    · rw [hjpath] at h1
      rw [h1] at hlen
      simp at hlen
    · rw [hjpath] at hpre' hne'
      rcases List.mem_append.mp he' with heE | heSelf
      · exact hnopre e' heE hpre'
      · rw [List.mem_singleton] at heSelf
        exact hne' heSelf.symm
    · rw [hjpath] at hf
      exact hfresh hf
  obtain ⟨hinv₂, hTn, hTp⟩ := addChild_inv fs₁ SS (E ++ [e.path])
    (E ++ [e.path]) cur₁ ci₁
    { attrs :=
        { FIL_ATTR_TEMPLATE with
            ino := fs₁.nextInode, size := e.size,
            blocks := (e.size + 511) / 512 },
      children := [], path := e.path, kratePath := some cp } g
    (Inv_mono (fun s hs => hs) (fun x hx => hx)
      (fun x hx => List.mem_append.mpr (Or.inl hx)) hinv₁)
    hcur₁ (by rw [hpath₁, hsplit]) rfl hnm
    (by unfold Prov
        exact Or.inr (Or.inr (Or.inr (by simp))))
  exact ⟨_, rfl, hinv₂⟩

/-- Folding the entries of a well-formed archive preserves the invariant,
with all its entry paths recorded. -/
theorem populateEntries_inv (cp : String) (SS : List String) :
    ∀ (arc : List Entry) (E : List (List String)) (fs : FuseFs),
      Inv fs SS E E →
      (∀ e ∈ arc, 2 ≤ e.path.length) →
      List.Pairwise (fun p q => ¬ p <+: q ∧ ¬ q <+: p)
        (arc.map (fun e => e.path)) →
      (∀ e ∈ arc, ∀ e' ∈ E, e.path ≠ e' ∧ ¬ (e.path <+: e')) →
      ∃ fs',
        List.foldlM (fun s e => populateEntry s cp e) fs arc = some fs' ∧
        Inv fs' SS (E ++ arc.map (fun e => e.path))
          (E ++ arc.map (fun e => e.path)) := by
  intro arc
  induction arc with
  | nil =>
    intro E fs hinv _ _ _
    exact ⟨fs, rfl, by simpa using hinv⟩
  | cons e rest ih =>
    intro E fs hinv hlen hpw hcross
    obtain ⟨fs₁, hstep, hinv₁⟩ := populateEntry_inv fs SS E cp e
      (Inv_mono (fun s hs => hs) (fun x hx => List.mem_append.mpr (.inl hx))
        (fun x hx => hx) hinv)
      (hlen e (by simp))
      (fun hmem => (hcross e (by simp) e.path hmem).1 rfl)
      (fun e' he' => (hcross e (by simp) e' he').2)
    rw [List.map_cons, List.pairwise_cons] at hpw
    obtain ⟨fs', hfold, hinv'⟩ := ih (E ++ [e.path]) fs₁ hinv₁
      (fun e₂ h2 => hlen e₂ (by simp [h2]))
      hpw.2
      (by
        intro e₂ h2 e' he'
        rcases List.mem_append.mp he' with hE | hself
        · exact hcross e₂ (by simp [h2]) e' hE
        · rw [List.mem_singleton] at hself
          subst hself
          have hr := hpw.1 e₂.path (List.mem_map.mpr ⟨e₂, h2, rfl⟩)
          refine ⟨?_, hr.2⟩
          intro heq
          exact hr.2 (by rw [heq]))
    refine ⟨fs', ?_, ?_⟩
    · rw [List.foldlM_cons, hstep]
      exact hfold
    · rw [show E ++ List.map (fun e => e.path) (e :: rest) =
        (E ++ [e.path]) ++ List.map (fun e => e.path) rest from by simp]
      exact hinv'

theorem prefix_head_eq {p q : List String} (h : p <+: q) (hne : p ≠ []) :
    p.head? = q.head? := by
  obtain ⟨t, rfl⟩ := h
  cases p with
  | nil => exact absurd rfl hne
  | cons a l => rfl

/-- A fresh stem cannot clash with an existing root child: root children are
crate directories of processed stems, intermediate directories whose head
lies in the processed stems, and no file (entry paths have length at least
two). -/
theorem root_no_stem_clash (fs : FuseFs) (SS : List String)
    (E : List (List String)) (r : Inode) (stem : String)
    (hinv : Inv fs SS E E)
    (hEH : EHeads SS E)
    (hr : fs.inodes FUSE_ROOT_ID = some r)
    (hrp : r.path = [])
    (hstem : stem ∉ SS) :
    stem ∉ childNamesT fs.inodes r.children := by
  intro hmem
  obtain ⟨c, hc, j, hj, hlast⟩ := childNamesT_mem hmem
  obtain ⟨nm', hnm'⟩ := hinv.pathRel FUSE_ROOT_ID r c j hr hc hj
  rw [hrp, List.nil_append] at hnm'
  have hnms : nm' = stem := by
    rw [hnm'] at hlast
    simpa using hlast
  subst hnms
  have hpj := hinv.prov c j hj
  unfold Prov at hpj
  rcases hpj with h0 | ⟨s, hs, h1⟩ | ⟨e', he', hpre', hne', hne0⟩ | hf
  · rw [hnm'] at h0
    cases h0
  · rw [hnm'] at h1
    have h1' : nm' = s := by simpa using h1
    rw [h1'] at hstem
    exact hstem hs
  · rw [hnm'] at hpre'
    obtain ⟨t, ht⟩ := hpre'
    obtain ⟨hlen2, s, hsS, hhead⟩ := hEH e' he'
    rw [← ht] at hhead
    have h1' : nm' = s := by simpa using hhead
    rw [h1'] at hstem
    exact hstem hsS
  · rw [hnm'] at hf
    obtain ⟨hlen2, -⟩ := hEH _ hf
    simp at hlen2

/-- The main induction over the source directory listing: folding
`init_step` over the remaining file names from any state satisfying the
invariant yields a state satisfying it. -/
theorem initFold_inv (host : Host) (src : String) :
    ∀ (files : List String) (fs : FuseFs) (SS : List String)
      (E : List (List String)) (fs' : FuseFs),
      fs.path = src →
      Inv fs SS E E →
      EHeads SS E →
      (SS ++ crateStemsOfFiles files).Nodup →
      (∀ s ∈ crateStemsOfFiles files,
        archiveOKopt s (host.archive (src ++ "/" ++ s ++ ".crate"))) →
      List.foldlM (initStep host) fs files = some fs' →
      ∃ SS' E', Inv fs' SS' E' E' := by
  intro files
  induction files with
  | nil =>
    intro fs SS E fs' _ hinv _ _ _ hfold
    have hfs : fs = fs' := by simpa using hfold
    exact ⟨SS, E, hfs ▸ hinv⟩
  | cons name rest ih =>
    intro fs SS E fs' hpath hinv hEH hnodup hok hfold
    rw [List.foldlM_cons] at hfold
    cases hstep : initStep host fs name with
    | none =>
      rw [hstep] at hfold
      cases hfold
    | some fs₁ =>
      rw [hstep] at hfold
      replace hfold : List.foldlM (initStep host) fs₁ rest = some fs' := hfold
      have hpath₁ : fs₁.path = src := by rw [initStep_path hstep, hpath]
      cases hsp : splitExtName name with
      | none =>
        have hstems : crateStemsOfFiles (name :: rest) =
            crateStemsOfFiles rest := by
          simp [crateStemsOfFiles, List.filterMap_cons, hsp]
        have hfs : fs₁ = fs := by
          unfold initStep at hstep
          rw [hsp] at hstep
          exact (Option.some.inj hstep).symm
        rw [hstems] at hnodup
        exact ih fs₁ SS E fs' hpath₁ (hfs ▸ hinv) hEH hnodup
          (fun s hs => hok s (by rw [hstems]; exact hs)) hfold
      | some se =>
        obtain ⟨stem, ext⟩ := se
        by_cases hext : ext = "crate"
        · subst hext
          have hstems : crateStemsOfFiles (name :: rest) =
              stem :: crateStemsOfFiles rest := by
            simp [crateStemsOfFiles, List.filterMap_cons, hsp]
          rw [hstems] at hnodup
          have hstemSS : stem ∉ SS := by
            intro hmem
            exact (List.nodup_append.mp hnodup).2.2 hmem (by simp)
          unfold initStep at hstep
          rw [hsp] at hstep
          dsimp only at hstep
          rw [if_pos rfl] at hstep
          obtain ⟨r, hr, hrp⟩ := hinv.root
          have hnoclash := root_no_stem_clash fs SS E r stem hinv hEH hr hrp
            hstemSS
          obtain ⟨hinv₂, hTn, hTp⟩ := addChild_inv fs (SS ++ [stem]) E E
            FUSE_ROOT_ID r
            { attrs := { DIR_ATTR_TEMPLATE with ino := fs.nextInode },
              children := [], path := [stem], kratePath := none } stem
            (Inv_mono (fun s hs => List.mem_append.mpr (.inl hs))
              (fun x hx => hx) (fun x hx => hx) hinv)
            hr (by rw [hrp]; rfl) rfl hnoclash
            (by unfold Prov
                exact Or.inr (Or.inl ⟨stem, by simp, rfl⟩))
          unfold populateCrate at hstep
          dsimp only at hstep
          cases harc : host.archive (fs.path ++ "/" ++ stem ++ ".crate") with
          | none =>
            rw [harc] at hstep
            cases hstep
          | some arc =>
            rw [harc] at hstep
            dsimp only at hstep
            have hokA : archiveOK stem arc := by
              have h := hok stem (by rw [hstems]; simp)
              rw [← hpath] at h
              rw [harc] at h
              exact h
            obtain ⟨fs₃, hfold3, hinv₃⟩ := populateEntries_inv
              (fs.path ++ "/" ++ stem ++ ".crate") (SS ++ [stem]) arc E _
              hinv₂
              (fun e he => (hokA.1 e he).1)
              hokA.2
              (by
                intro e he e' he'
                obtain ⟨hl2, s', hs'SS, hhead'⟩ := hEH e' he'
                obtain ⟨hlE, hheadE⟩ := hokA.1 e he
                have hnes : stem ≠ s' := fun h => hstemSS (h ▸ hs'SS)
                have hpne0 : e.path ≠ [] := by
                  intro h
                  rw [h] at hlE
                  simp at hlE
                constructor
                · intro heq
                  rw [heq, hhead'] at hheadE
                  exact hnes (Option.some.inj hheadE).symm
                · intro hpre
                  have hh := prefix_head_eq hpre hpne0
                  rw [hheadE, hhead'] at hh
                  exact hnes (Option.some.inj hh))
            have hfs31 : fs₃ = fs₁ :=
              Option.some.inj (hfold3.symm.trans hstep)
            rw [hfs31] at hinv₃
            have hEH' : EHeads (SS ++ [stem])
                (E ++ arc.map (fun e => e.path)) := by
              intro e' he'
              rcases List.mem_append.mp he' with hE | hA
              · obtain ⟨hl, s', hs', hh⟩ := hEH e' hE
                exact ⟨hl, s', List.mem_append.mpr (.inl hs'), hh⟩
              · obtain ⟨e₀, he₀, rfl⟩ := List.mem_map.mp hA
                obtain ⟨hl, hh⟩ := hokA.1 e₀ he₀
                exact ⟨hl, stem, by simp, hh⟩
            have hnodup' :
                ((SS ++ [stem]) ++ crateStemsOfFiles rest).Nodup := by
              rw [List.append_assoc]
              simpa using hnodup
            exact ih fs₁ (SS ++ [stem]) (E ++ arc.map (fun e => e.path)) fs'
              hpath₁ hinv₃ hEH' hnodup'
              (fun s hs => hok s (by rw [hstems]; simp [hs])) hfold
        · have hstems : crateStemsOfFiles (name :: rest) =
              crateStemsOfFiles rest := by
            simp [crateStemsOfFiles, List.filterMap_cons, hsp, hext]
          have hfs : fs₁ = fs := by
            unfold initStep at hstep
            rw [hsp] at hstep
            dsimp only at hstep
            rw [if_neg hext] at hstep
            exact (Option.some.inj hstep).symm
          rw [hstems] at hnodup
          exact ih fs₁ SS E fs' hpath₁ (hfs ▸ hinv) hEH hnodup
            (fun s hs => hok s (by rw [hstems]; exact hs)) hfold

/-- C3 (amended): after `init` on a clean host — crate stems pairwise
distinct, and each archive's entry paths pairwise distinct, prefix-free, of
length at least two and headed by the crate's stem — the child names of
every inode of the built tree are pairwise distinct.  (The host conditions
are forced: the counterexample shows a duplicated entry path already
produces two same-named siblings.) -/
theorem c3_distinct_names (host : Host) (src : String) (fs : FuseFs)
    (hgood : GoodHost host src)
    (hinit : initModel host src = some fs) :
    ∀ k i, fs.inodes k = some i →
      (childNamesT fs.inodes i.children).Nodup := by
  unfold initModel at hinit
  dsimp only at hinit
  have hinv0 : Inv
      { path := src,
        inodes := tupdate (fun _ => none) FUSE_ROOT_ID rootInode,
        nextInode := FUSE_ROOT_ID + 1 } [] [] [] := by
    refine ⟨?_, ?_, ?_, ?_, ?_, ?_⟩
    · refine ⟨rootInode, ?_, rfl⟩
      show tupdate (fun _ => none) FUSE_ROOT_ID rootInode FUSE_ROOT_ID =
        some rootInode
      exact tupdate_self _ _ _
    · intro k i hk
      show k < FUSE_ROOT_ID + 1
      by_cases h1 : k = FUSE_ROOT_ID
      · omega
      · replace hk : tupdate (fun _ => none) FUSE_ROOT_ID rootInode k =
          some i := hk
        rw [tupdate_other _ _ _ _ h1] at hk
        cases hk
    · intro k i c hk hc
      replace hk : tupdate (fun _ => none) FUSE_ROOT_ID rootInode k =
        some i := hk
      by_cases h1 : k = FUSE_ROOT_ID
      · subst h1
        rw [tupdate_self] at hk
        injection hk with hk
        rw [← hk] at hc
        simp [rootInode] at hc
      · rw [tupdate_other _ _ _ _ h1] at hk
        cases hk
    · intro k i c j hk hc hj
      replace hk : tupdate (fun _ => none) FUSE_ROOT_ID rootInode k =
        some i := hk
      by_cases h1 : k = FUSE_ROOT_ID
      · subst h1
        rw [tupdate_self] at hk
        injection hk with hk
        rw [← hk] at hc
        simp [rootInode] at hc
      · rw [tupdate_other _ _ _ _ h1] at hk
        cases hk
    · intro k i hk
      replace hk : tupdate (fun _ => none) FUSE_ROOT_ID rootInode k =
        some i := hk
      by_cases h1 : k = FUSE_ROOT_ID
      · subst h1
        rw [tupdate_self] at hk
        injection hk with hk
        rw [← hk]
        simp [rootInode, childNamesT]
      · rw [tupdate_other _ _ _ _ h1] at hk
        cases hk
    · intro k i hk
      replace hk : tupdate (fun _ => none) FUSE_ROOT_ID rootInode k =
        some i := hk
      by_cases h1 : k = FUSE_ROOT_ID
      · subst h1
        rw [tupdate_self] at hk
        injection hk with hk
        rw [← hk]
        unfold Prov
        exact Or.inl rfl
      · rw [tupdate_other _ _ _ _ h1] at hk
        cases hk
  obtain ⟨SS', E', hinv'⟩ := initFold_inv host src host.dirFiles
    { path := src, inodes := tupdate (fun _ => none) FUSE_ROOT_ID rootInode,
      nextInode := FUSE_ROOT_ID + 1 } [] [] fs rfl hinv0
    (fun e he => absurd he (List.not_mem_nil e))
    (by simpa using hgood.1)
    (fun s hs => hgood.2 s hs)
    hinit
  exact hinv'.distinct

/-- C3 (counterexample): the S5 archive (one path occurring twice) builds a
crate directory whose two children both carry the name `y.txt` — the child
names of a directory are not pairwise distinct for every input. -/
theorem c3_counterexample :
    (exFs.inodes 2).map (fun i => childNamesT exFs.inodes i.children) =
      some ["y.txt", "y.txt"] ∧
    ¬ (["y.txt", "y.txt"] : List String).Nodup := by
  decide

/-- C3 witness: the amended theorem applied to `goodHost`, at the crate
directory inode 2 of the resulting tree. -/
theorem c3_witness :
    GoodHost goodHost "d" ∧
    (childNamesT goodFs.inodes goodCrateDir.children).Nodup ∧
    childNamesT goodFs.inodes goodCrateDir.children =
      ["Cargo.toml", "src"] := by
  refine ⟨by decide, c3_distinct_names goodHost "d" goodFs (by decide) rfl 2
    goodCrateDir rfl, by decide⟩

/-- C8 witness: the amended theorem applied to the crate directory of
`goodFs` with capacities `[2, 1, 1, 1]`. -/
theorem c8_witness :
    readdirDrive goodFs 2 [2, 1, 1, 1] 0 = dirEnts goodFs 2 goodCrateDir ∧
    dirEnts goodFs 2 goodCrateDir =
      [⟨2, 0, .directory, "."⟩, ⟨2, 1, .directory, ".."⟩,
       ⟨3, 2, .regularFile, "Cargo.toml"⟩, ⟨4, 3, .directory, "src"⟩] := by
  refine ⟨c8_drive_concat goodFs 2 goodCrateDir 2 [1, 1, 1] (by decide)
    (by decide) (by decide) (by decide) (by decide) (by decide), by decide⟩

end FuseCrates
